import Mathlib

/-!
Verification of the state-reduction mechanism of the `agent-ai-typescript`
repository (`src/03-langgraph-basics/01-state.ts`).

The file declares a field schema with `Annotation.Root`:
  - `name: Annotation<string>` — a plain field, overwritten by updates,
    with no declared default;
  - `items: Annotation<string[]>` with reducer `(x, y) => x.concat(y)` and
    `default: () => []`.
Two nodes (`nodeA`, `nodeB`) return partial updates, and a `StateGraph`
chains them in the fixed linear order START → nodeA → nodeB → END, run by
`graph.invoke({})` in `demonstrateState`.

The per-field merge rules, defaults, node bodies and step order are embedded
from the source.  The Reducer Runtime itself (initialisation from defaults,
sequential application of step updates, fail-fast on undeclared fields,
propagation of step failures) is provided by the external
`@langchain/langgraph` package, not by the repository; it is modelled here
from the specification's description of the mechanism.
-/

namespace StateReducer

/-- A field value: the schema in the source only holds text (`name`)
and sequences of text (`items`). -/
inductive Value where
  | text (s : String)
  | seq (l : List String)
deriving DecidableEq, Repr

/-- Per-field merge rule: the default rule of the library overwrites the
previous value (source comment, line 28); `items` declares an
append reducer (line 35). -/
inductive MergeRule where
  | overwrite
  | append
deriving DecidableEq, Repr

/-- The reducer declared for `items` in the source:
`reducer: (x, y) => x.concat(y)` — the current list followed by the new
list, in that order. -/
def itemsReducer (x y : List String) : List String := x ++ y

/-- Merge of a new value into a current value under a rule.  Overwrite
replaces; append concatenates sequences with the `items` reducer.  (An
append update to a non-sequence current value cannot occur in the typed
source; the fallback keeps the update.) -/
def mergeValue : MergeRule → Value → Value → Value
  | .overwrite, _, u => u
  | .append, .seq x, .seq y => .seq (itemsReducer x y)
  | .append, _, u => u

/-- One declared field: its name, its merge rule, and its declared default
value, if any (`name` declares none; `items` declares `() => []`). -/
structure FieldDecl where
  fname : String
  rule : MergeRule
  dflt : Option Value
deriving DecidableEq, Repr

/-- A field schema, as declared once up front by `Annotation.Root`. -/
abbrev Schema := List FieldDecl

/-- A state: a finite mapping from present field names to values. -/
abbrev StateMap := List (String × Value)

/-- A partial update returned by a step: a mapping of zero or more field
names to new values. -/
abbrev Update := List (String × Value)

/-- Value of a field in a state (first binding wins), `none` if absent. -/
def lookupField (s : StateMap) (k : String) : Option Value :=
  match s with
  | [] => none
  | (k', v) :: rest => if k' = k then some v else lookupField rest k

/-- Replace the binding of `k` (first occurrence) or add it at the end. -/
def setField (s : StateMap) (k : String) (v : Value) : StateMap :=
  match s with
  | [] => [(k, v)]
  | (k', v') :: rest =>
      if k' = k then (k', v) :: rest else (k', v') :: setField rest k v

/-- The schema declared by `Annotation.Root` in `01-state.ts`:
`name` (overwrite, no default) and `items` (append, default `[]`). -/
def graphStateSchema : Schema :=
  [⟨"name", .overwrite, none⟩,
   ⟨"items", .append, some (.seq [])⟩]

/-- Modelled from the spec: the Reducer Runtime's initial state — each
declared field whose schema declares a default starts at that default;
fields without a declared default are absent before they are first
written.  (The runtime lives in `@langchain/langgraph`, outside the
repository.) -/
def initState (schema : Schema) : StateMap :=
  schema.filterMap (fun d => d.dflt.map (fun v => (d.fname, v)))

/-- Modelled from the spec: merge one update entry into the state using the
field's declared merge rule; an entry for an undeclared field fails fast
with an error.  (The merge application lives in `@langchain/langgraph`,
outside the repository.) -/
def mergeEntry (schema : Schema) (s : StateMap) (kv : String × Value) :
    Except String StateMap :=
  match schema.find? (fun d => d.fname = kv.1) with
  | none => .error ("undeclared field: " ++ kv.1)
  | some d =>
      match lookupField s kv.1 with
      | some cur => .ok (setField s kv.1 (mergeValue d.rule cur kv.2))
      | none => .ok (setField s kv.1 kv.2)

/-- Modelled from the spec: apply a step's partial update to the state,
field by field, using each field's merge rule; fields absent from the
update are left unchanged. -/
def applyUpdate (schema : Schema) (s : StateMap) (u : Update) :
    Except String StateMap :=
  match u with
  | [] => .ok s
  | kv :: rest => do
      let s' ← mergeEntry schema s kv
      applyUpdate schema s' rest

/-- A step function: from the current state to a partial update; a step
that throws is modelled by returning `Except.error`. -/
abbrev Step := StateMap → Except String Update

/-- Modelled from the spec: run the steps one at a time in the declared
order, each step receiving the fully merged state produced by all prior
steps; a step failure or an undeclared-field error aborts the run. -/
def runSteps (schema : Schema) (steps : List Step) (s : StateMap) :
    Except String StateMap :=
  match steps with
  | [] => .ok s
  | st :: rest => do
      let u ← st s
      let s' ← applyUpdate schema s u
      runSteps schema rest s'

/-- Modelled from the spec: the trace of states the successive steps see —
the state handed to step `i` is the fully merged result of steps before
`i`. -/
def runTrace (schema : Schema) (steps : List Step) (s : StateMap) :
    Except String (List StateMap) :=
  match steps with
  | [] => .ok []
  | st :: rest => do
      let u ← st s
      let s' ← applyUpdate schema s u
      let tr ← runTrace schema rest s'
      .ok (s :: tr)

/-- Modelled from the spec: a full run (`graph.invoke`): initialise from
declared defaults, merge the caller-supplied initial partial state with
the same per-field rules, then run every step once in order and return
the final state. -/
def invoke (schema : Schema) (steps : List Step) (init : Update) :
    Except String StateMap := do
  let s0 ← applyUpdate schema (initState schema) init
  runSteps schema steps s0

/-- `nodeA` from the source: returns `{ items: ["Apple"], name: "John" }`. -/
def nodeA : Step :=
  fun _ => .ok [("items", .seq ["Apple"]), ("name", .text "John")]

/-- `nodeB` from the source: returns `{ items: ["Banana"] }`. -/
def nodeB : Step :=
  fun _ => .ok [("items", .seq ["Banana"])]

/-- The step sequence wired by `graphBuilder`:
START → nodeA → nodeB → END. -/
def graphSteps : List Step := [nodeA, nodeB]

/-- `demonstrateState` from the source: `graph.invoke({})`. -/
def demonstrateState : Except String StateMap :=
  invoke graphStateSchema graphSteps []

/-- The spec's end-to-end scenario StepA: returns
`{name: "Ada", items: ["First"]}`. -/
def stepA : Step :=
  fun _ => .ok [("name", .text "Ada"), ("items", .seq ["First"])]

/-- The spec's end-to-end scenario StepB: returns `{items: ["Second"]}`. -/
def stepB : Step :=
  fun _ => .ok [("items", .seq ["Second"])]

/-- A step that returns the single-field update `{items: l}`. -/
def appendStep (l : List String) : Step :=
  fun _ => .ok [("items", .seq l)]

/-- The current `items` sequence of a state, read as a list ( `[]` when the
field is absent or not a sequence, which the typed source rules out). -/
def firstItems (s : StateMap) : List String :=
  match lookupField s "items" with
  | some (.seq xs) => xs
  | _ => []

/-- The field names present in a state. -/
def stateKeys (s : StateMap) : List String := s.map Prod.fst

/-- The field names declared by a schema. -/
def declaredNames (schema : Schema) : List String := schema.map FieldDecl.fname

theorem ok_bind {α β : Type} (a : α) (f : α → Except String β) :
    (Except.ok a >>= f) = f a := rfl

theorem error_bind {α β : Type} (e : String) (f : α → Except String β) :
    ((Except.error e : Except String α) >>= f) = Except.error e := rfl

theorem lookupField_setField_self (s : StateMap) (k : String) (v : Value) :
    lookupField (setField s k v) k = some v := by
  induction s with
  | nil => simp [setField, lookupField]
  | cons hd tl ih =>
      obtain ⟨k', v'⟩ := hd
      by_cases h : k' = k
      · simp [setField, h, lookupField]
      · simp [setField, h, lookupField, ih]

theorem lookupField_setField_ne (s : StateMap) (k k' : String) (v : Value)
    (h : k' ≠ k) : lookupField (setField s k v) k' = lookupField s k' := by
  have hne : ¬ k = k' := fun hh => h hh.symm
  induction s with
  | nil => simp [setField, lookupField, hne]
  | cons hd tl ih =>
      obtain ⟨k₀, v₀⟩ := hd
      by_cases h₀ : k₀ = k
      · subst h₀
        simp [setField, lookupField, hne]
      · simp [setField, h₀, lookupField, ih]

theorem setField_setField (s : StateMap) (k : String) (v w : Value) :
    setField (setField s k v) k w = setField s k w := by
  induction s with
  | nil => simp [setField]
  | cons hd tl ih =>
      obtain ⟨k₀, v₀⟩ := hd
      by_cases h₀ : k₀ = k
      · simp [setField, h₀]
      · simp [setField, h₀, ih]

/-- Merging an `{items: l}` update appends `l` to the current items. -/
theorem applyUpdate_items (s : StateMap) (xs l : List String) :
    applyUpdate graphStateSchema (setField s "items" (.seq xs))
      [("items", .seq l)] =
    .ok (setField s "items" (.seq (xs ++ l))) := by
  simp [applyUpdate, mergeEntry, graphStateSchema, List.find?,
    lookupField_setField_self, mergeValue, itemsReducer, setField_setField]
  rfl

theorem firstItems_setField (s : StateMap) (xs : List String) :
    firstItems (setField s "items" (.seq xs)) = xs := by
  simp [firstItems, lookupField_setField_self]

/-- Merging an `{items: l}` update from any state appends `l` to the current
items (the current sequence when present, the empty list otherwise). -/
theorem applyUpdate_items_any (s : StateMap) (l : List String) :
    applyUpdate graphStateSchema s [("items", .seq l)] =
    .ok (setField s "items" (.seq (firstItems s ++ l))) := by
  unfold applyUpdate mergeEntry firstItems
  cases h : lookupField s "items" with
  | none => simp [graphStateSchema, List.find?, h, mergeValue]; rfl
  | some cur =>
      cases cur with
      | text t => simp [graphStateSchema, List.find?, h, mergeValue]; rfl
      | seq xs =>
          simp [graphStateSchema, List.find?, h, mergeValue, itemsReducer]
          rfl

/-- A successful single-entry merge only rewrites the updated field, and
that field is one declared by the schema. -/
theorem mergeEntry_ok_shape (schema : Schema) (s : StateMap)
    (kv : String × Value) (s₁ : StateMap)
    (h : mergeEntry schema s kv = .ok s₁) :
    kv.1 ∈ declaredNames schema ∧ ∃ v, s₁ = setField s kv.1 v := by
  unfold mergeEntry at h
  cases hf : schema.find? (fun d => d.fname = kv.1) with
  | none => rw [hf] at h; exact absurd h (by simp)
  | some d =>
      rw [hf] at h
      have hd : d ∈ schema := List.mem_of_find?_eq_some hf
      have hname : d.fname = kv.1 := by
        have := List.find?_some hf
        exact of_decide_eq_true this
      refine ⟨hname ▸ List.mem_map_of_mem FieldDecl.fname hd, ?_⟩
      cases hl : lookupField s kv.1 with
      | none => rw [hl] at h; exact ⟨kv.2, by injection h with h; exact h.symm⟩
      | some cur =>
          rw [hl] at h
          exact ⟨mergeValue d.rule cur kv.2, by injection h with h; exact h.symm⟩

/-- A successful single-entry merge leaves every other field unchanged. -/
theorem lookupField_mergeEntry_ne (schema : Schema) (s : StateMap)
    (kv : String × Value) (s₁ : StateMap) (k : String)
    (h : mergeEntry schema s kv = .ok s₁) (hne : k ≠ kv.1) :
    lookupField s₁ k = lookupField s k := by
  obtain ⟨-, v, rfl⟩ := mergeEntry_ok_shape schema s kv s₁ h
  exact lookupField_setField_ne s kv.1 k v hne

/-- C1: for the declared append-sequence field `items`, two steps in
sequence returning `{items: [a]}` then `{items: [b]}` append `[a, b]` in
step execution order onto the end of the existing sequence `xs`, dropping
nothing; starting from the declared default (the empty sequence) the final
value is exactly `[a, b]`. -/
theorem append_field_concatenates_in_order (a b : String) (s : StateMap)
    (xs : List String) :
    runSteps graphStateSchema [appendStep [a], appendStep [b]]
        (setField s "items" (.seq xs)) =
      .ok (setField s "items" (.seq (xs ++ [a, b]))) ∧
    (runSteps graphStateSchema [appendStep [a], appendStep [b]]
        (initState graphStateSchema)).map (fun st => lookupField st "items") =
      .ok (some (.seq [a, b])) := by
  have run : ∀ (t : StateMap) (ys : List String),
      runSteps graphStateSchema [appendStep [a], appendStep [b]]
        (setField t "items" (.seq ys)) =
      .ok (setField t "items" (.seq (ys ++ [a, b]))) := by
    intro t ys
    simp [runSteps, appendStep, applyUpdate_items, ok_bind,
      setField_setField, List.append_assoc]
  refine ⟨run s xs, ?_⟩
  have hinit : initState graphStateSchema = setField [] "items" (.seq []) := rfl
  rw [hinit, run [] []]
  simp [lookupField_setField_self, Except.map]

/-- C2: for the declared overwrite field `name`, after a step returns
`{name: v}` the next state's `name` equals `v` exactly, regardless of the
prior state: the merge discards the current value. -/
theorem overwrite_field_last_write_wins (s : StateMap) (v : Value) :
    applyUpdate graphStateSchema s [("name", v)] =
      .ok (setField s "name" v) ∧
    lookupField (setField s "name" v) "name" = some v := by
  refine ⟨?_, lookupField_setField_self s "name" v⟩
  unfold applyUpdate mergeEntry
  cases h : lookupField s "name" with
  | none => simp [graphStateSchema, List.find?, h, mergeValue]; rfl
  | some cur => simp [graphStateSchema, List.find?, h, mergeValue]; rfl

/-- C3: the steps run exactly once each, in declared order, each step
receiving the fully merged state of all prior steps (the trace records the
state each step sees); for the schema `{name: overwrite, items: append}`
with StepA returning `{name: "Ada", items: ["First"]}` and StepB returning
`{items: ["Second"]}` the final state is
`{name: "Ada", items: ["First", "Second"]}`; the source's own run (`nodeA`,
`nodeB`) likewise ends with `name = "John"`,
`items = ["Apple", "Banana"]`. -/
theorem linear_two_step_scenario :
    (invoke graphStateSchema [stepA, stepB] []).map
        (fun st => (lookupField st "name", lookupField st "items")) =
      .ok (some (.text "Ada"), some (.seq ["First", "Second"])) ∧
    runTrace graphStateSchema [stepA, stepB] (initState graphStateSchema) =
      .ok [initState graphStateSchema,
           [("items", .seq ["First"]), ("name", .text "Ada")]] ∧
    demonstrateState.map
        (fun st => (lookupField st "name", lookupField st "items")) =
      .ok (some (.text "John"), some (.seq ["Apple", "Banana"])) := by
  refine ⟨rfl, rfl, rfl⟩

/-- C5: the append-field merge is associative: from every initial state,
reducing the step updates `[{items: [a]}, {items: [b]}, {items: [c]}]`
yields the same final state (hence the same items sequence) as reducing
`[{items: [a, b]}, {items: [c]}]`. -/
theorem append_merge_assoc (s : StateMap) (a b c : String) :
    runSteps graphStateSchema
        [appendStep [a], appendStep [b], appendStep [c]] s =
      runSteps graphStateSchema [appendStep [a, b], appendStep [c]] s := by
  simp [runSteps, appendStep, applyUpdate_items_any, ok_bind,
    firstItems_setField, setField_setField, List.append_assoc]

/-- C7: running the reducer with an empty step sequence returns the initial
state unchanged: exactly the declared defaults merged, with each field's
merge rule, with the caller-supplied initial partial state — and with no
caller-supplied values it is exactly the defaults. -/
theorem empty_run_returns_initial_state (schema : Schema) (init : Update) :
    invoke schema [] init =
      applyUpdate schema (initState schema) init ∧
    invoke schema [] [] = .ok (initState schema) := by
  constructor
  · unfold invoke
    cases h : applyUpdate schema (initState schema) init with
    | error e => rw [error_bind]
    | ok s => rw [ok_bind]; rfl
  · rfl

theorem lookupField_applyUpdate_notMentioned (schema : Schema) (u : Update) :
    ∀ (s s' : StateMap) (k : String),
      applyUpdate schema s u = .ok s' → (∀ kv ∈ u, kv.1 ≠ k) →
      lookupField s' k = lookupField s k := by
  induction u with
  | nil =>
      intro s s' k h hk
      injection h with h
      rw [h]
  | cons kv rest ih =>
      intro s s' k h hk
      unfold applyUpdate at h
      cases hm : mergeEntry schema s kv with
      | error e => rw [hm, error_bind] at h; exact absurd h (by simp)
      | ok s₁ =>
          rw [hm, ok_bind] at h
          have h₂ := ih s₁ s' k h
            (fun kv' hkv' => hk kv' (List.mem_cons_of_mem kv hkv'))
          rw [h₂]
          exact lookupField_mergeEntry_ne schema s kv s₁ k hm
            (Ne.symm (hk kv (List.mem_cons_self kv rest)))

/-- C4: every field whose name is absent from a step's returned partial
update keeps its prior value in the next state; in particular the empty
update leaves the whole state unchanged. -/
theorem absent_fields_unchanged (schema : Schema) (s : StateMap) :
    applyUpdate schema s [] = .ok s ∧
    ∀ (u : Update) (s' : StateMap) (k : String),
      applyUpdate schema s u = .ok s' → (∀ kv ∈ u, kv.1 ≠ k) →
      lookupField s' k = lookupField s k :=
  ⟨rfl, fun u s' k h hk => lookupField_applyUpdate_notMentioned schema u s s' k h hk⟩

theorem absent_fields_unchanged_witness :
    applyUpdate graphStateSchema [("items", Value.seq [])] [] =
      .ok [("items", Value.seq [])] ∧
    lookupField [("items", Value.seq ["x"])] "name" =
      lookupField [("items", Value.seq [])] "name" :=
  ⟨(absent_fields_unchanged graphStateSchema [("items", Value.seq [])]).1,
   (absent_fields_unchanged graphStateSchema [("items", Value.seq [])]).2
     [("items", Value.seq ["x"])] [("items", Value.seq ["x"])] "name"
     rfl (by decide)⟩

theorem stateKeys_setField (s : StateMap) (k : String) (v : Value)
    (k' : String) (h : k' ∈ stateKeys (setField s k v)) :
    k' = k ∨ k' ∈ stateKeys s := by
  induction s with
  | nil =>
      simp [setField, stateKeys] at h
      exact Or.inl h
  | cons hd tl ih =>
      obtain ⟨k₀, v₀⟩ := hd
      by_cases h₀ : k₀ = k
      · simp only [setField, h₀, if_pos rfl, stateKeys, List.map_cons,
          List.mem_cons] at h ⊢
        exact Or.inr (by simpa [stateKeys] using h)
      · simp only [setField, if_neg h₀, stateKeys, List.map_cons,
          List.mem_cons] at h ⊢
        rcases h with h | h
        · exact Or.inr (Or.inl h)
        · rcases ih (by simpa [stateKeys] using h) with h' | h'
          · exact Or.inl h'
          · exact Or.inr (Or.inr (by simpa [stateKeys] using h'))

theorem applyUpdate_keys_declared (schema : Schema) (u : Update) :
    ∀ (s s' : StateMap),
      applyUpdate schema s u = .ok s' →
      (∀ k ∈ stateKeys s, k ∈ declaredNames schema) →
      ∀ k ∈ stateKeys s', k ∈ declaredNames schema := by
  induction u with
  | nil =>
      intro s s' h hs
      injection h with h
      rw [← h]
      exact hs
  | cons kv rest ih =>
      intro s s' h hs
      unfold applyUpdate at h
      cases hm : mergeEntry schema s kv with
      | error e => rw [hm, error_bind] at h; exact absurd h (by simp)
      | ok s₁ =>
          rw [hm, ok_bind] at h
          obtain ⟨hdecl, v, rfl⟩ := mergeEntry_ok_shape schema s kv s₁ hm
          refine ih _ s' h (fun k hk => ?_)
          rcases stateKeys_setField s kv.1 v k hk with h' | h'
          · exact h' ▸ hdecl
          · exact hs k h'

/-- C6 counterexample: the claim that every declared field has a
well-defined initial value from its declared default fails on the declared
schema: `name` is declared with no default, so before the first step it
has no value at all. -/
theorem name_default_missing_cex :
    ¬ (∀ k ∈ declaredNames graphStateSchema,
        (lookupField (initState graphStateSchema) k).isSome = true) := by
  decide

/-- C6 as amended: the field `items`, declared with default `() => []`,
starts at that default; the field `name`, declared with no default, is
absent before the first step writes it; and the field-name set can never
grow beyond the declared schema — every successful merge keeps all state
keys inside the declared field names. -/
theorem initial_defaults_and_declared_fields :
    lookupField (initState graphStateSchema) "items" = some (.seq []) ∧
    lookupField (initState graphStateSchema) "name" = none ∧
    ∀ (schema : Schema) (u : Update) (s s' : StateMap),
      applyUpdate schema s u = .ok s' →
      (∀ k ∈ stateKeys s, k ∈ declaredNames schema) →
      ∀ k ∈ stateKeys s', k ∈ declaredNames schema :=
  ⟨rfl, rfl, fun schema u s s' => applyUpdate_keys_declared schema u s s'⟩

theorem initial_defaults_and_declared_fields_witness :
    ("name" : String) ∈ declaredNames graphStateSchema :=
  initial_defaults_and_declared_fields.2.2 graphStateSchema
    [("name", Value.text "Z")] (initState graphStateSchema)
    [("items", Value.seq []), ("name", Value.text "Z")]
    rfl (by decide) "name" (by decide)

/-- C8: if a step fails (throws or rejects), the failure propagates
unchanged to the run's caller the moment the run reaches that step: no
later step runs, nothing is caught or retried, and no final state is
produced — the run's result is exactly the step's error. -/
theorem step_failure_propagates (schema : Schema) (pre post : List Step)
    (e : String) (s s₁ : StateMap) (h : runSteps schema pre s = .ok s₁) :
    runSteps schema (pre ++ (fun _ => Except.error e) :: post) s =
      Except.error e := by
  induction pre generalizing s with
  | nil =>
      simp only [List.nil_append]
      unfold runSteps
      rw [error_bind]
  | cons st rest ih =>
      simp only [List.cons_append]
      unfold runSteps at h ⊢
      cases hu : st s with
      | error e₀ => rw [hu, error_bind] at h; exact absurd h (by simp)
      | ok u =>
          rw [hu, ok_bind] at h
          rw [ok_bind]
          cases ha : applyUpdate schema s u with
          | error e₀ => rw [ha, error_bind] at h; exact absurd h (by simp)
          | ok s₂ =>
              rw [ha, ok_bind] at h
              rw [ok_bind]
              exact ih s₂ h

theorem step_failure_propagates_witness :
    runSteps graphStateSchema [fun _ => Except.error "boom"]
      (initState graphStateSchema) = Except.error "boom" :=
  step_failure_propagates graphStateSchema [] [] "boom"
    (initState graphStateSchema) (initState graphStateSchema) rfl

/-- C9: a step update that mentions a field name declared nowhere in the
schema makes the reducer fail fast with an error — the update is neither
silently dropped nor merged. -/
theorem undeclared_field_fails_fast (schema : Schema) (s : StateMap)
    (u : Update) (kv : String × Value) (hmem : kv ∈ u)
    (hundecl : ∀ d ∈ schema, d.fname ≠ kv.1) :
    ∃ msg, applyUpdate schema s u = Except.error msg := by
  induction u generalizing s with
  | nil => cases hmem
  | cons kv₀ rest ih =>
      rcases List.mem_cons.mp hmem with heq | hmem'
      · subst heq
        have hf : schema.find? (fun d => d.fname = kv.1) = none :=
          List.find?_eq_none.mpr (fun d hd => by simpa using hundecl d hd)
        refine ⟨"undeclared field: " ++ kv.1, ?_⟩
        unfold applyUpdate mergeEntry
        rw [hf]
        rfl
      · cases hm : mergeEntry schema s kv₀ with
        | error e =>
            exact ⟨e, by unfold applyUpdate; rw [hm, error_bind]⟩
        | ok s₁ =>
            rcases ih s₁ hmem' with ⟨msg, hmsg⟩
            exact ⟨msg, by unfold applyUpdate; rw [hm, ok_bind, hmsg]⟩

theorem undeclared_field_fails_fast_witness :
    ∃ msg, applyUpdate graphStateSchema (initState graphStateSchema)
      [("color", Value.text "red")] = Except.error msg :=
  undeclared_field_fails_fast graphStateSchema (initState graphStateSchema)
    [("color", Value.text "red")] ("color", Value.text "red")
    (by decide) (by decide)

theorem mergeEntry_items (s : StateMap) (cur v : Value)
    (hcur : lookupField s "items" = some cur) :
    mergeEntry graphStateSchema s ("items", v) =
      .ok (setField s "items" (mergeValue .append cur v)) := by
  unfold mergeEntry
  simp [graphStateSchema, List.find?, hcur]

theorem applyUpdate_items_extends (u : Update) :
    ∀ (s s' : StateMap) (xs : List String),
      (∀ kv ∈ u, kv.1 = "items" → ∃ l, kv.2 = Value.seq l) →
      lookupField s "items" = some (Value.seq xs) →
      applyUpdate graphStateSchema s u = .ok s' →
      ∃ ys, lookupField s' "items" = some (Value.seq (xs ++ ys)) := by
  induction u with
  | nil =>
      intro s s' xs hw hx h
      injection h with h
      subst h
      exact ⟨[], by simpa using hx⟩
  | cons kv rest ih =>
      intro s s' xs hw hx h
      unfold applyUpdate at h
      obtain ⟨k, v⟩ := kv
      by_cases hk : k = "items"
      · subst hk
        obtain ⟨l, rfl⟩ := hw ("items", v) (List.mem_cons_self _ _) rfl
        rw [mergeEntry_items s (Value.seq xs) (Value.seq l) hx, ok_bind] at h
        simp only [mergeValue, itemsReducer] at h
        obtain ⟨ys, hys⟩ :=
          ih (setField s "items" (Value.seq (xs ++ l))) s' (xs ++ l)
            (fun kv hkv hkv1 => hw kv (List.mem_cons_of_mem _ hkv) hkv1)
            (lookupField_setField_self s "items" (Value.seq (xs ++ l))) h
        exact ⟨l ++ ys, by rw [hys, List.append_assoc]⟩
      · cases hm : mergeEntry graphStateSchema s (k, v) with
        | error e => rw [hm, error_bind] at h; exact absurd h (by simp)
        | ok s₁ =>
            rw [hm, ok_bind] at h
            have hx₁ : lookupField s₁ "items" = some (Value.seq xs) := by
              rw [lookupField_mergeEntry_ne graphStateSchema s (k, v) s₁
                "items" hm (Ne.symm hk)]
              exact hx
            exact ih s₁ s' xs
              (fun kv hkv hkv1 => hw kv (List.mem_cons_of_mem _ hkv) hkv1)
              hx₁ h

/-- C10: the items sequence is append-only: the reducer
`(x, y) => x.concat(y)` keeps its first argument intact as the front of
its pure result (so nothing is removed, reordered, or modified and the
length never decreases), and any successful merge of a well-typed update
extends the current items sequence on the right. -/
theorem items_append_only (s s' : StateMap) (u : Update) (xs : List String)
    (hw : ∀ kv ∈ u, kv.1 = "items" → ∃ l, kv.2 = Value.seq l)
    (hx : lookupField s "items" = some (Value.seq xs))
    (h : applyUpdate graphStateSchema s u = .ok s') :
    (∀ x y : List String, (itemsReducer x y).take x.length = x ∧
      x.length ≤ (itemsReducer x y).length) ∧
    ∃ ys, lookupField s' "items" = some (Value.seq (xs ++ ys)) :=
  ⟨fun x y => ⟨List.take_left x y, by simp [itemsReducer]⟩,
   applyUpdate_items_extends u s s' xs hw hx h⟩

theorem items_append_only_witness :
    ∃ ys, lookupField [("items", Value.seq ["w"])] "items" =
      some (Value.seq ([] ++ ys)) :=
  (items_append_only [("items", Value.seq [])] [("items", Value.seq ["w"])]
    [("items", Value.seq ["w"])] []
    (by
      intro kv hkv hk
      rw [List.mem_singleton] at hkv
      subst hkv
      exact ⟨["w"], rfl⟩)
    rfl rfl).2

end StateReducer
